import Mathlib

/-!
Verification of the embedding-aligner candidate pipeline.

This file gives a shallow embedding, in Lean 4, of the algorithmic core of
the repository (confidence classification, frequency ratio, Levenshtein
edit distance, retrieval ordering, CSLS scoring, Procrustes orthogonality,
retrofitting, seed filtering, precision/MRR evaluation), and proves or
refutes the specification's claims about it.

Real-valued quantities computed exactly by the Python code (sums, products,
divisions, comparisons) are modelled over `ℚ`; the retrofitting model uses
`ℝ` because the row normalisation divides by a Euclidean norm (a square
root).  Machine floats are idealised as exact arithmetic throughout.
-/

namespace EmbeddingAligner

/-! ### Confidence classification (src/scripts/07_validate_candidates.py) -/

/-- Confidence tiers of `filter_candidates`. -/
inductive Tier where
  | high : Tier
  | medium : Tier
  | low : Tier
deriving DecidableEq, Repr

/-- Numeric rank of a tier, for the ordering low < medium < high. -/
def tierRank : Tier → Nat
  | .high => 2
  | .medium => 1
  | .low => 0

/-- The classification branch of `filter_candidates`
(07_validate_candidates.py lines 147-176):
`if similarity > 0.7 and (is_mutual or not check_mutual) and freq_ratio > 0.1`
then high, `elif similarity > 0.6` then medium, else low. -/
def classifyTier (checkMutual : Bool) (sim : ℚ) (isMutual : Bool) (freqRatio : ℚ) : Tier :=
  if sim > 7/10 ∧ (isMutual = true ∨ checkMutual = false) ∧ freqRatio > 1/10 then .high
  else if sim > 6/10 then .medium
  else .low

/-- The classification rule as the specification states it (claim C1), at the
configuration values the code uses (high 0.7, medium 0.6, min freq ratio 0.1):
high iff `similarity ≥ high_threshold` AND
(`mutual_nn` OR `frequency_ratio ≥ min_freq_ratio`).  Stated only to be
compared against `classifyTier`. -/
def claimedTier (sim : ℚ) (isMutual : Bool) (freqRatio : ℚ) : Tier :=
  if sim ≥ 7/10 ∧ (isMutual = true ∨ freqRatio ≥ 1/10) then .high
  else if sim ≥ 6/10 then .medium
  else .low

/-- One validated candidate record, as built by `filter_candidates`. -/
structure CandRec where
  translation : String
  similarity : ℚ
  isMutual : Bool
  freqRatio : ℚ
  editDistance : Nat
deriving DecidableEq, Repr

/-- The record `filter_candidates` appends for word `w`, translation `tr`,
similarity `s`: the mutual flag is computed only when `check_mutual` is set
(`is_mutual = False` otherwise), frequency ratio and edit distance always. -/
def mkCandRec (mutualFn : String → String → Bool) (freqFn : String → String → ℚ)
    (editFn : String → String → Nat) (checkMutual : Bool)
    (w tr : String) (s : ℚ) : CandRec :=
  ⟨tr, s, if checkMutual then mutualFn w tr else false, freqFn w tr, editFn w tr⟩

/-- Accumulator of `filter_candidates`: the `high`, `medium` and `low`
collections.  The Python dict-of-lists keyed by the Ido word is modelled as a
flat list of (word, record) entries in encounter order. -/
abbrev FilterAcc := List (String × CandRec) × List (String × CandRec) × List (String × CandRec)

/-- One step of the inner loop of `filter_candidates` for entry `(w, tr, s)`:
skip when `similarity < min_similarity`, otherwise compute the signals and
append to the tier's collection. -/
def filterStep (mutualFn : String → String → Bool) (freqFn : String → String → ℚ)
    (editFn : String → String → Nat) (minSim : ℚ) (checkMutual : Bool)
    (acc : FilterAcc) (w tr : String) (s : ℚ) : FilterAcc :=
  if s < minSim then acc
  else
    let rec' := mkCandRec mutualFn freqFn editFn checkMutual w tr s
    match classifyTier checkMutual s rec'.isMutual rec'.freqRatio with
    | .high => (acc.1 ++ [(w, rec')], acc.2.1, acc.2.2)
    | .medium => (acc.1, acc.2.1 ++ [(w, rec')], acc.2.2)
    | .low => (acc.1, acc.2.1, acc.2.2 ++ [(w, rec')])

/-- `filter_candidates` (07_validate_candidates.py lines 106-178): loop over
candidate words, then over each word's translation list; classify each
surviving pair into high/medium/low.  The mutual-NN, frequency-ratio and
edit-distance computations (which read the two embedding models) enter as
the oracle functions `mutualFn`, `freqFn`, `editFn`. -/
def filterCandidates (mutualFn : String → String → Bool) (freqFn : String → String → ℚ)
    (editFn : String → String → Nat) (minSim : ℚ) (checkMutual : Bool)
    (cands : List (String × List (String × ℚ))) : FilterAcc :=
  cands.foldl
    (fun acc wc =>
      wc.2.foldl (fun acc ts => filterStep mutualFn freqFn editFn minSim checkMutual acc wc.1 ts.1 ts.2) acc)
    ([], [], [])

/-- Membership of a raw (word, translation, similarity) triple in the input
candidate dictionary. -/
def pairInCands (cands : List (String × List (String × ℚ))) (w tr : String) (s : ℚ) : Prop :=
  ∃ ts, (w, ts) ∈ cands ∧ (tr, s) ∈ ts

/-- The input candidate dictionary flattened to (word, translation, similarity)
triples in loop-encounter order. -/
def allPairs : List (String × List (String × ℚ)) → List (String × String × ℚ)
  | [] => []
  | wc :: rest => wc.2.map (fun ts => (wc.1, ts.1, ts.2)) ++ allPairs rest

/-- The entry `filter_candidates` contributes to tier `t` for one flat input
triple, if any. -/
def tierSelect (mutualFn : String → String → Bool) (freqFn : String → String → ℚ)
    (editFn : String → String → Nat) (minSim : ℚ) (checkMutual : Bool)
    (t : Tier) (p : String × String × ℚ) : Option (String × CandRec) :=
  if p.2.2 < minSim then none
  else if classifyTier checkMutual p.2.2
      (mkCandRec mutualFn freqFn editFn checkMutual p.1 p.2.1 p.2.2).isMutual
      (mkCandRec mutualFn freqFn editFn checkMutual p.1 p.2.1 p.2.2).freqRatio = t then
    some (p.1, mkCandRec mutualFn freqFn editFn checkMutual p.1 p.2.1 p.2.2)
  else none

/-! ### Frequency ratio (src/scripts/07_validate_candidates.py lines 68-82) -/

/-- `compute_frequency_ratio`: `0.0` when either count is zero, otherwise
`min(count_s, count_t) / max(count_s, count_t)`. -/
def compute_frequency_ratio (idoCount epoCount : Nat) : ℚ :=
  if idoCount = 0 ∨ epoCount = 0 then 0
  else (min idoCount epoCount : ℚ) / (max idoCount epoCount : ℚ)

/-! ### Retrieval ordering (src/scripts/06_find_candidates.py lines 107-135)

`find_nearest_neighbors` computes a cosine-similarity row against the whole
target vocabulary and returns the candidates at
`np.argsort(similarities)[-k:][::-1]`.  The similarity row enters the model
as the list `sims` (its computation from the embedding vectors is upstream
of the ordering claims).  `np.argsort` is modelled as the deterministic
stable ascending argsort, i.e. sorting the index range by the pair
(value, index); this matches numpy's output whenever its sort is stable
(in particular for the small arrays of the concrete inputs used below,
where numpy uses insertion sort). -/

/-- Stable-argsort comparison: by value, then by original index. -/
def lexRank (s : List ℚ) (i j : Nat) : Prop :=
  s.getD i 0 < s.getD j 0 ∨ (s.getD i 0 = s.getD j 0 ∧ i ≤ j)

instance lexRank.instDecidableRel (s : List ℚ) : DecidableRel (lexRank s) := fun i j => by
  unfold lexRank
  infer_instance

instance lexRank.instIsTotal (s : List ℚ) : IsTotal Nat (lexRank s) := by
  constructor
  intro i j
  rcases lt_trichotomy (s.getD i 0) (s.getD j 0) with h | h | h
  · exact Or.inl (Or.inl h)
  · rcases Nat.le_total i j with hij | hij
    · exact Or.inl (Or.inr ⟨h, hij⟩)
    · exact Or.inr (Or.inr ⟨h.symm, hij⟩)
  · exact Or.inr (Or.inl h)

instance lexRank.instIsTrans (s : List ℚ) : IsTrans Nat (lexRank s) := by
  constructor
  intro i j l hij hjl
  rcases hij with h1 | ⟨h1, h1'⟩ <;> rcases hjl with h2 | ⟨h2, h2'⟩
  · exact Or.inl (lt_trans h1 h2)
  · exact Or.inl (h2 ▸ h1)
  · exact Or.inl (h1 ▸ h2)
  · exact Or.inr ⟨h1.trans h2, Nat.le_trans h1' h2'⟩

instance lexRank.instIsAntisymm (s : List ℚ) : IsAntisymm Nat (lexRank s) := by
  constructor
  intro i j hij hji
  rcases hij with h1 | ⟨h1, h1'⟩ <;> rcases hji with h2 | ⟨h2, h2'⟩
  · exact absurd (lt_trans h1 h2) (lt_irrefl _)
  · exact absurd h1 (h2 ▸ lt_irrefl _)
  · exact absurd h2 (h1 ▸ lt_irrefl _)
  · exact Nat.le_antisymm h1' h2'

/-- `np.argsort(similarities)` (ascending, ties in index order). -/
def argsortAsc (s : List ℚ) : List Nat :=
  List.insertionSort (lexRank s) (List.range s.length)

/-- `np.argsort(similarities)[-k:][::-1]`: the last `k` positions of the
ascending argsort, reversed. -/
def topKIndices (s : List ℚ) (k : Nat) : List Nat :=
  ((argsortAsc s).drop ((argsortAsc s).length - k)).reverse

/-- `find_nearest_neighbors` from the similarity row on: build the result
records `(translation, similarity)` at the top-k indices, in order. -/
def find_nearest_neighbors (epoVocab : List String) (sims : List ℚ) (k : Nat) :
    List (String × ℚ) :=
  (topKIndices sims k).map (fun idx => (epoVocab.getD idx "", sims.getD idx 0))

/-! ### CSLS scoring (src/scripts/05_find_candidates.py lines 46-65)

`csls` normalises the query and target vectors, computes the raw cosine
similarity row (line 56), selects the top-k similarities with
`np.argpartition`, takes their mean `r`, and returns `2*similarities - r`.
The model starts from the similarity row `sims`;
`np.argpartition(-sims, min(k, n-1))[:k]` selects `k` indices carrying the
largest values (any such selection has the same value multiset, hence the
same mean), modelled deterministically as the first `k` positions of the
descending stable argsort. -/

/-- The `np.argpartition` top-k selection: indices of the `k` largest
similarities. -/
def topKSel (s : List ℚ) (k : Nat) : List Nat :=
  ((argsortAsc s).reverse).take k

/-- `csls(src_vec, tgt_vecs, k)` from the cosine-similarity row on:
`r` is the mean similarity over the selected top-k indices, computed once,
and every candidate's score is `2 * cos − r`. -/
def csls (sims : List ℚ) (k : Nat) : List ℚ :=
  let sel := topKSel sims k
  let r := (sel.map (fun i => sims.getD i 0)).sum / (sel.length : ℚ)
  sims.map (fun x => 2 * x - r)

/-- The specification's description of `r`: the mean of the `k` highest raw
cosine similarities of the pool (all of them when the pool has fewer than
`k`). -/
def topkMeanHighest (s : List ℚ) (k : Nat) : ℚ :=
  ((List.insertionSort (· ≥ ·) s).take k).sum /
    (((List.insertionSort (· ≥ ·) s).take k).length : ℚ)

/-! ### Edit distance (src/scripts/07_validate_candidates.py lines 85-103)

`compute_edit_distance` runs the classic two-row dynamic program over the
two words (swapping so the first is at least as long, returning the length
of the first word when the second is empty).  Words are modelled as
`List Char`.  The reference definition `levenshtein` is the textbook
Levenshtein recurrence with unit costs. -/

/-- The Levenshtein distance (unit insert/delete/substitute costs), by
recursion on the leading characters. -/
def levenshtein : List Char → List Char → Nat
  | [], ys => ys.length
  | _ :: xs, [] => xs.length + 1
  | x :: xs, y :: ys =>
      min ((if x = y then 0 else 1) + levenshtein xs ys)
        (min (1 + levenshtein xs (y :: ys)) (1 + levenshtein (x :: xs) ys))
termination_by a b => a.length + b.length

/-- `Aligns xs ys n`: the two words admit an edit script (deletions,
insertions, matches/substitutions) of total cost `n`. -/
inductive Aligns : List Char → List Char → Nat → Prop where
  | nil : Aligns [] [] 0
  | del (x : Char) {xs ys : List Char} {n : Nat} :
      Aligns xs ys n → Aligns (x :: xs) ys (n + 1)
  | ins (y : Char) {xs ys : List Char} {n : Nat} :
      Aligns xs ys n → Aligns xs (y :: ys) (n + 1)
  | sub (x y : Char) {xs ys : List Char} {n : Nat} :
      Aligns xs ys n → Aligns (x :: xs) (y :: ys) (n + (if x = y then 0 else 1))

/-- The inner loop of `compute_edit_distance` (lines 94-101): given the
previous row (from index `j` on) and the already computed cell
`cur = current_row[j]`, emit the rest of the current row, where
`current_row[j+1] = min(previous_row[j+1] + 1, current_row[j] + 1,
previous_row[j] + (c1 != c2))`. -/
def buildRow (c1 : Char) : List Char → List Nat → Nat → List Nat
  | [], _, cur => [cur]
  | c2 :: rest, prev, cur =>
      cur :: buildRow c1 rest prev.tail
        (min (prev.tail.headD 0 + 1)
          (min (cur + 1) (prev.headD 0 + (if c1 = c2 then 0 else 1))))

/-- The outer loop of `compute_edit_distance`: one row per character of
`word1` (with its enumerate index `i`; `current_row` starts as `[i + 1]`),
returning the final `previous_row`. -/
def dpLoop (w2 : List Char) : List Char → Nat → List Nat → List Nat
  | [], _, prev => prev
  | c1 :: rest, i, prev => dpLoop w2 rest (i + 1) (buildRow c1 w2 prev (i + 1))

/-- `compute_edit_distance` (lines 85-103): swap so `word1` is the longer,
answer `len(word1)` when `word2` is empty, otherwise run the dynamic
program from `previous_row = range(len(word2) + 1)` and return the last
cell of the final row. -/
def compute_edit_distance (word1 word2 : List Char) : Nat :=
  if h : word1.length < word2.length then compute_edit_distance word2 word1
  else if word2.length = 0 then word1.length
  else (dpLoop word2 word1 0 (List.range (word2.length + 1))).getLastD 0
termination_by word2.length

/-- The row the dynamic program is expected to hold after processing the
(reversed) prefix `P` of `word1`: cell `j` is the distance between `P` and
the reversed prefix of `word2` of length `j` (`B` reversed-consumed, `v`
remaining). -/
def expRow (P : List Char) : List Char → List Char → List Nat
  | B, [] => [levenshtein P B]
  | B, c2 :: v => levenshtein P B :: expRow P (c2 :: B) v

/-! ### Evaluation (src/scripts/find_nearest_neighbors_bert.py lines 132-193
and src/scripts/05_align_embeddings.py lines 95-148)

`evaluate_on_seed_dictionary` walks the seed dictionary; entries whose
query word was not retrieved are skipped; for the rest, the 1-indexed rank
of the first expected translation found among the predictions feeds the
P@1/P@5/P@10 counters and the reciprocal-rank list. -/

/-- The counters accumulated by the loop of `evaluate_on_seed_dictionary`. -/
structure EvalCounters where
  p1Count : Nat
  p5Count : Nat
  p10Count : Nat
  rrs : List ℚ
  evaluated : Nat
deriving Repr

/-- `found_at`: the 1-indexed rank, among the predicted words, of the first
expected translation that occurs there (`None` when none does). -/
def rankOf (nbrs : List (String × ℚ)) (expected : List String) : Option Nat :=
  expected.findSome? (fun e => ((nbrs.map Prod.fst).findIdx? (fun w => w == e)).map (· + 1))

/-- One loop iteration of `evaluate_on_seed_dictionary` for one seed entry. -/
def evalStep (nn : List (String × List (String × ℚ))) (acc : EvalCounters)
    (entry : String × List String) : EvalCounters :=
  match List.lookup entry.1 nn with
  | none => acc
  | some nbrs =>
    match rankOf nbrs entry.2 with
    | some r =>
      ⟨acc.p1Count + (if r = 1 then 1 else 0),
       acc.p5Count + (if r ≤ 5 then 1 else 0),
       acc.p10Count + (if r ≤ 10 then 1 else 0),
       acc.rrs ++ [(1 : ℚ) / (r : ℚ)],
       acc.evaluated + 1⟩
    | none =>
      ⟨acc.p1Count, acc.p5Count, acc.p10Count, acc.rrs ++ [0], acc.evaluated + 1⟩

/-- The full loop of `evaluate_on_seed_dictionary` over the seed entries. -/
def evalFold (nn : List (String × List (String × ℚ)))
    (seed : List (String × List String)) : EvalCounters :=
  seed.foldl (evalStep nn) ⟨0, 0, 0, [], 0⟩

/-- The metrics record returned by `evaluate_on_seed_dictionary`. -/
structure EvalMetrics where
  evaluatedPairs : Nat
  p1 : ℚ
  p5 : ℚ
  p10 : ℚ
  mrr : ℚ
deriving Repr

/-- `evaluate_on_seed_dictionary` (lines 132-193): fold the counters, then
divide (guarding empty denominators exactly as the code does). -/
def evaluate_on_seed_dictionary (nn : List (String × List (String × ℚ)))
    (seed : List (String × List String)) : EvalMetrics :=
  let c := evalFold nn seed
  ⟨c.evaluated,
   if 0 < c.evaluated then (c.p1Count : ℚ) / (c.evaluated : ℚ) else 0,
   if 0 < c.evaluated then (c.p5Count : ℚ) / (c.evaluated : ℚ) else 0,
   if 0 < c.evaluated then (c.p10Count : ℚ) / (c.evaluated : ℚ) else 0,
   if c.rrs ≠ [] then c.rrs.sum / (c.rrs.length : ℚ) else 0⟩

/-- Whether a seed entry's query word was retrieved at all. -/
def queriedPred (nn : List (String × List (String × ℚ))) (e : String × List String) : Bool :=
  (List.lookup e.1 nn).isSome

/-- Whether a seed entry counts towards the `P@k` numerator: it must have
been queried and its found rank must be at most `k`. -/
def pkPred (nn : List (String × List (String × ℚ))) (k : Nat)
    (e : String × List String) : Bool :=
  ((List.lookup e.1 nn).bind (fun nbrs => rankOf nbrs e.2)).elim false
    (fun r => decide (r ≤ k))

/-- The reciprocal-rank contribution of a seed entry (`none` when the entry
was not queried; `0` when no expected translation was found). -/
def rrContribution (nn : List (String × List (String × ℚ)))
    (e : String × List String) : Option ℚ :=
  (List.lookup e.1 nn).map (fun nbrs =>
    (rankOf nbrs e.2).elim 0 (fun r => (1 : ℚ) / (r : ℚ)))

/-- `evaluate_alignment` (05_align_embeddings.py lines 126-133): the rank of
seed pair `i` is the number of similarities strictly above the diagonal
one, computed from the aligned-source × target similarity matrix. -/
def correct_ranks (sims : List (List ℚ)) : List Nat :=
  (List.range sims.length).map
    (fun i => (sims.getD i []).countP (fun x => decide (x > (sims.getD i []).getD i 0)))

/-- `evaluate_alignment`'s precision at `k`: the mean of the indicator
`rank < k` over all pairs (`P@1` is `rank == 0`, i.e. `rank < 1`). -/
def evaluate_alignment_pk (sims : List (List ℚ)) (k : Nat) : ℚ :=
  (((correct_ranks sims).countP (fun r => decide (r < k)) : ℚ)) / ((sims.length : ℚ))

/-! ### Procrustes alignment (src/scripts/05_align_embeddings.py lines 76-92)

`learn_procrustes_alignment` calls `scipy.linalg.orthogonal_procrustes`,
which computes a singular value decomposition `U Σ Vᵗ` of the
cross-covariance matrix of the paired embeddings (an external library
routine) and returns `W = U · Vᵗ`.  The SVD factors enter the model as
inputs, with their defining contract — orthogonality of `U` and of `Vᵗ` —
as hypotheses. -/

/-- Squared Frobenius norm of a square rational matrix. -/
def frobSq {n : Nat} (M : Matrix (Fin n) (Fin n) ℚ) : ℚ :=
  ∑ i, ∑ j, (M i j) ^ 2

/-- `learn_procrustes_alignment`: the transform returned from the SVD
factors of the cross-covariance matrix is `W = U · Vᵗ`. -/
def learn_procrustes_alignment {n : Nat} (U Vt : Matrix (Fin n) (Fin n) ℚ) :
    Matrix (Fin n) (Fin n) ℚ :=
  U * Vt

/-! ### Retrofitting (src/scripts/align_bert_with_esperanto.py lines 93-166)
and seed loading (lines 65-90)

Embedding matrices are lists of rows over `ℝ` (the row normalisation
divides by a Euclidean norm, so exact rationals do not suffice; the
affected definitions are `noncomputable` for that reason only).  Seed
pairs enter as index pairs; the code's `word in index` membership check
becomes a bounds check. -/

/-- An embedding row. -/
abbrev Vec := List ℝ

/-- `(1 − α)·u + α·v`, componentwise. -/
noncomputable def mix (α : ℝ) (u v : Vec) : Vec :=
  List.zipWith (fun a b => (1 - α) * a + α * b) u v

/-- The first update loop of `retrofit_embeddings` (lines 130-137): pull
each source row towards its target row, reading the fixed target matrix. -/
noncomputable def updateIdo (α : ℝ) (epo : List Vec) (pairs : List (Nat × Nat))
    (ido : List Vec) : List Vec :=
  pairs.foldl
    (fun acc p =>
      if p.1 < acc.length ∧ p.2 < epo.length then
        acc.set p.1 (mix α (acc.getD p.1 []) (epo.getD p.2 []))
      else acc)
    ido

/-- The second update loop of `retrofit_embeddings` (lines 139-146): pull
each target row towards its (already updated) source row. -/
noncomputable def updateEpo (α : ℝ) (ido : List Vec) (pairs : List (Nat × Nat))
    (epo : List Vec) : List Vec :=
  pairs.foldl
    (fun acc p =>
      if p.1 < ido.length ∧ p.2 < acc.length then
        acc.set p.2 (mix α (acc.getD p.2 []) (ido.getD p.1 []))
      else acc)
    epo

/-- The `1e-8` regulariser added to every row norm before dividing. -/
noncomputable def normEps : ℝ := 1 / 100000000

/-- Euclidean norm of a row. -/
noncomputable def rowNorm (v : Vec) : ℝ :=
  Real.sqrt ((v.map (fun x => x * x)).sum)

/-- `m / (np.linalg.norm(m, axis=1, keepdims=True) + 1e-8)` (lines
149-150): every row divided by its norm plus the regulariser. -/
noncomputable def normalizeRows (m : List Vec) : List Vec :=
  m.map (fun v => v.map (fun x => x / (rowNorm v + normEps)))

/-- One iteration of `retrofit_embeddings` (lines 127-156): all source
updates, then all target updates against the updated source matrix, then
row normalisation of both matrices. -/
noncomputable def retrofitIteration (α : ℝ) (pairs : List (Nat × Nat))
    (st : List Vec × List Vec) : List Vec × List Vec :=
  (normalizeRows (updateIdo α st.2 pairs st.1),
   normalizeRows (updateEpo α (updateIdo α st.2 pairs st.1) pairs st.2))

/-- Dot product of two rows (`np.dot`). -/
noncomputable def dotVec (u v : Vec) : ℝ :=
  (List.zipWith (fun a b => a * b) u v).sum

/-- The usable seed pairs: those passing the `word in index` membership
check used by both update loops and by `compute_seed_similarity` (in the
index model, a bounds check against both matrices). -/
def validSeedPairs (pairs : List (Nat × Nat)) (ido epo : List Vec) : List (Nat × Nat) :=
  pairs.filter (fun p => decide (p.1 < ido.length ∧ p.2 < epo.length))

/-- `compute_seed_similarity` (align_bert_with_esperanto.py lines 169-180):
the mean dot product over the usable seed pairs, and the bare `0.0` when
no pair is usable. -/
noncomputable def compute_seed_similarity (pairs : List (Nat × Nat))
    (ido epo : List Vec) : ℝ :=
  let sims := (validSeedPairs pairs ido epo).map
    (fun p => dotVec (ido.getD p.1 []) (epo.getD p.2 []))
  if sims = [] then 0 else sims.sum / (sims.length : ℝ)

/-- `retrofit_embeddings` (lines 93-166): the caller-supplied number of
strictly sequential iterations, followed by the end-of-run diagnostic of
line 164, which divides the similarity improvement by `initial_sim`
inside an eagerly evaluated f-string.  When the usable seed set is empty,
the similarity lists are empty, `compute_seed_similarity` returns the
plain Python float `0.0`, and `improvement/initial_sim` is `0.0/0.0` on
plain floats — a `ZeroDivisionError`, so the run fails before returning
the matrices.  With at least one usable pair the similarities are numpy
scalars, whose division yields nan/inf without raising, and the evolved
matrices are returned.  The `Except.error` branch is guarded by exactly
that emptiness condition. -/
noncomputable def retrofit_embeddings (iterations : Nat) (α : ℝ)
    (pairs : List (Nat × Nat)) (ido epo : List Vec) :
    Except String (List Vec × List Vec) :=
  let st := (retrofitIteration α pairs)^[iterations] (ido, epo)
  if validSeedPairs pairs ido epo = [] then
    Except.error "ZeroDivisionError: float division by zero"
  else Except.ok st

/-- One iteration as the specification of claim C5 describes it: for each
seed pair in turn, update the source row and then immediately the target
row from the just-updated source, then normalise.  Stated only to be
compared against `retrofitIteration`. -/
noncomputable def retrofitIterationClaimed (α : ℝ) (pairs : List (Nat × Nat))
    (st : List Vec × List Vec) : List Vec × List Vec :=
  let upd := pairs.foldl
    (fun st p =>
      if p.1 < st.1.length ∧ p.2 < st.2.length then
        let ido' := st.1.set p.1 (mix α (st.1.getD p.1 []) (st.2.getD p.2 []))
        (ido', st.2.set p.2 (mix α (st.2.getD p.2 []) (ido'.getD p.1 [])))
      else st)
    st
  (normalizeRows upd.1, normalizeRows upd.2)

/-- `load_seed_dictionary` (align_bert_with_esperanto.py lines 65-90), from
the parsed two-field lines on: lower-case both words, keep the pair when
both are in their vocabularies, otherwise increment the skip counter. -/
def load_seed_dictionary (pairs : List (String × String))
    (idoVocab epoVocab : List String) : List (String × String) × Nat :=
  pairs.foldl
    (fun acc p =>
      if p.1.toLower ∈ idoVocab ∧ p.2.toLower ∈ epoVocab then
        (acc.1 ++ [(p.1.toLower, p.2.toLower)], acc.2)
      else (acc.1, acc.2 + 1))
    ([], 0)

end EmbeddingAligner

namespace EmbeddingAligner

open Matrix

/-! ### First theorems: classifier and frequency ratio -/

/-- C6: raising the similarity of a candidate while holding the mutual-NN
flag and frequency ratio fixed never lowers the tier assigned by the
classification branch of `filter_candidates`. -/
theorem classifyTier_monotone (checkMutual isMutual : Bool) (freqRatio : ℚ)
    (s₁ s₂ : ℚ) (h : s₁ ≤ s₂) :
    tierRank (classifyTier checkMutual s₁ isMutual freqRatio) ≤
      tierRank (classifyTier checkMutual s₂ isMutual freqRatio) := by
  unfold classifyTier
  by_cases h1 : s₁ > 7/10 ∧ (isMutual = true ∨ checkMutual = false) ∧ freqRatio > 1/10
  · have h2 : s₂ > 7/10 ∧ (isMutual = true ∨ checkMutual = false) ∧ freqRatio > 1/10 :=
      ⟨lt_of_lt_of_le h1.1 h, h1.2⟩
    rw [if_pos h1, if_pos h2]
  · rw [if_neg h1]
    by_cases h3 : s₁ > 6/10
    · rw [if_pos h3]
      by_cases h4 : s₂ > 7/10 ∧ (isMutual = true ∨ checkMutual = false) ∧ freqRatio > 1/10
      · rw [if_pos h4]
        exact Nat.le_succ 1
      · rw [if_neg h4, if_pos (lt_of_lt_of_le h3 h)]
    · rw [if_neg h3]
      exact Nat.zero_le _

/-- Witness for `classifyTier_monotone` at a concrete input. -/
theorem classifyTier_monotone_witness :
    (1/2 : ℚ) ≤ 3/4 ∧
      tierRank (classifyTier true (1/2) true (1/5)) ≤
        tierRank (classifyTier true (3/4) true (1/5)) :=
  ⟨by norm_num, classifyTier_monotone true true (1/5) (1/2) (3/4) (by norm_num)⟩

/-- C9: the frequency ratio is `min/max` for positive counts (a value in
`(0,1]`, symmetric, `0.1` at counts `10, 100`, `1` at equal positive counts)
and exactly `0` when either count is zero. -/
theorem compute_frequency_ratio_spec (a b : Nat) :
    compute_frequency_ratio a b = compute_frequency_ratio b a ∧
    (0 < a → 0 < b →
      compute_frequency_ratio a b = min (a : ℚ) (b : ℚ) / max (a : ℚ) (b : ℚ) ∧
      0 < compute_frequency_ratio a b ∧ compute_frequency_ratio a b ≤ 1) ∧
    (a = 0 ∨ b = 0 → compute_frequency_ratio a b = 0) ∧
    compute_frequency_ratio 10 100 = 1/10 ∧
    compute_frequency_ratio 50 50 = 1 := by
  refine ⟨?_, ?_, ?_, ?_, ?_⟩
  · simp only [compute_frequency_ratio, min_comm (a : ℚ) (b : ℚ), max_comm (a : ℚ) (b : ℚ),
      or_comm]
  · intro ha hb
    have hne : ¬(a = 0 ∨ b = 0) := by omega
    have hmin : (0 : ℚ) < min (a : ℚ) (b : ℚ) :=
      lt_min (by exact_mod_cast ha) (by exact_mod_cast hb)
    have hmax : (0 : ℚ) < max (a : ℚ) (b : ℚ) :=
      lt_of_lt_of_le (by exact_mod_cast ha) (le_max_left _ _)
    refine ⟨by simp [compute_frequency_ratio, hne], ?_, ?_⟩
    · simp only [compute_frequency_ratio, hne, if_false]
      exact div_pos hmin hmax
    · simp only [compute_frequency_ratio, hne, if_false]
      rw [div_le_one hmax]
      exact min_le_max
  · intro h
    simp [compute_frequency_ratio, h]
  · norm_num [compute_frequency_ratio]
  · norm_num [compute_frequency_ratio]

/-- C1 counterexample: at similarity `0.8`, mutual-NN true, frequency ratio
`0.05`, the code assigns `medium` (its high branch requires
`freq_ratio > 0.1` in conjunction with the mutual flag), while the claimed
rule (`sim ≥ 0.7` and (mutual or `freq_ratio ≥ 0.1`)) assigns `high`. -/
theorem classifyTier_ne_claimedTier :
    classifyTier true (8/10) true (1/20) = Tier.medium ∧
      claimedTier (8/10) true (1/20) = Tier.high ∧
      classifyTier true (8/10) true (1/20) ≠ claimedTier (8/10) true (1/20) := by
  have h1 : classifyTier true (8/10) true (1/20) = Tier.medium := by
    norm_num [classifyTier]
  have h2 : claimedTier (8/10) true (1/20) = Tier.high := by
    norm_num [claimedTier]
  refine ⟨h1, h2, ?_⟩
  rw [h1, h2]
  exact fun hx => Tier.noConfusion hx

/-- `classifyTier` returns `high` exactly on the code's high branch. -/
theorem classifyTier_eq_high_iff (cm m : Bool) (s f : ℚ) :
    classifyTier cm s m f = Tier.high ↔ (s > 7/10 ∧ (m = true ∨ cm = false) ∧ f > 1/10) := by
  unfold classifyTier
  split_ifs with h1 h2
  · exact iff_of_true rfl h1
  · exact iff_of_false (by decide) h1
  · exact iff_of_false (by decide) h1

/-- `classifyTier` returns `medium` exactly when the high branch fails and
`similarity > 0.6`. -/
theorem classifyTier_eq_medium_iff (cm m : Bool) (s f : ℚ) :
    classifyTier cm s m f = Tier.medium ↔
      (¬(s > 7/10 ∧ (m = true ∨ cm = false) ∧ f > 1/10) ∧ s > 6/10) := by
  unfold classifyTier
  split_ifs with h1 h2
  · exact iff_of_false (by decide) (fun hx => hx.1 h1)
  · exact iff_of_true rfl ⟨h1, h2⟩
  · exact iff_of_false (by decide) (fun hx => h2 hx.2)

/-- `classifyTier` returns `low` exactly when both branches fail. -/
theorem classifyTier_eq_low_iff (cm m : Bool) (s f : ℚ) :
    classifyTier cm s m f = Tier.low ↔
      (¬(s > 7/10 ∧ (m = true ∨ cm = false) ∧ f > 1/10) ∧ ¬ s > 6/10) := by
  unfold classifyTier
  split_ifs with h1 h2
  · exact iff_of_false (by decide) (fun hx => hx.1 h1)
  · exact iff_of_false (by decide) (fun hx => hx.2 h2)
  · exact iff_of_true rfl ⟨h1, h2⟩

/-- The nested candidate loop of `filter_candidates`, flattened: folding the
step function over the flat triples, from any accumulator, appends exactly
the entries selected for each tier. -/
theorem foldl_filterStep_eq (mf : String → String → Bool) (ff : String → String → ℚ)
    (ef : String → String → Nat) (minSim : ℚ) (cm : Bool)
    (l : List (String × String × ℚ)) :
    ∀ acc : FilterAcc,
      l.foldl (fun a p => filterStep mf ff ef minSim cm a p.1 p.2.1 p.2.2) acc =
        (acc.1 ++ l.filterMap (tierSelect mf ff ef minSim cm .high),
         acc.2.1 ++ l.filterMap (tierSelect mf ff ef minSim cm .medium),
         acc.2.2 ++ l.filterMap (tierSelect mf ff ef minSim cm .low)) := by
  induction l with
  | nil => intro acc; simp
  | cons p l ih =>
    intro acc
    simp only [List.foldl_cons, List.filterMap_cons]
    rw [ih]
    unfold filterStep tierSelect
    by_cases h1 : p.2.2 < minSim
    · simp [h1]
    · simp only [h1, if_neg h1, if_false]
      cases hcl : classifyTier cm p.2.2 (mkCandRec mf ff ef cm p.1 p.2.1 p.2.2).isMutual
          (mkCandRec mf ff ef cm p.1 p.2.1 p.2.2).freqRatio <;>
        simp [hcl, List.append_assoc]

/-- `filter_candidates` as a declarative per-tier selection over the flat
input triples. -/
theorem filterCandidates_eq (mf : String → String → Bool) (ff : String → String → ℚ)
    (ef : String → String → Nat) (minSim : ℚ) (cm : Bool)
    (cands : List (String × List (String × ℚ))) :
    filterCandidates mf ff ef minSim cm cands =
      ((allPairs cands).filterMap (tierSelect mf ff ef minSim cm .high),
       (allPairs cands).filterMap (tierSelect mf ff ef minSim cm .medium),
       (allPairs cands).filterMap (tierSelect mf ff ef minSim cm .low)) := by
  unfold filterCandidates
  have h : ∀ acc : FilterAcc,
      cands.foldl
        (fun acc wc =>
          wc.2.foldl (fun acc ts => filterStep mf ff ef minSim cm acc wc.1 ts.1 ts.2) acc)
        acc =
      (allPairs cands).foldl (fun a p => filterStep mf ff ef minSim cm a p.1 p.2.1 p.2.2) acc := by
    induction cands with
    | nil => intro acc; rfl
    | cons wc rest ih =>
      intro acc
      simp only [List.foldl_cons, allPairs, List.foldl_append, List.foldl_map]
      rw [ih]
  rw [h ([], [], []), foldl_filterStep_eq]
  simp

/-- Membership in the flattened triples is membership in the candidate
dictionary. -/
theorem mem_allPairs (cands : List (String × List (String × ℚ))) (w tr : String) (s : ℚ) :
    (w, tr, s) ∈ allPairs cands ↔ pairInCands cands w tr s := by
  induction cands with
  | nil => simp [allPairs, pairInCands]
  | cons wc rest ih =>
    simp only [allPairs, List.mem_append, List.mem_map, ih, pairInCands, List.mem_cons]
    constructor
    · rintro (⟨ts, hts, heq⟩ | ⟨l, hl, hmem⟩)
      · obtain ⟨h1, h2, h3⟩ : wc.1 = w ∧ ts.1 = tr ∧ ts.2 = s := by
          simpa [Prod.ext_iff] using heq
        refine ⟨wc.2, Or.inl ?_, ?_⟩
        · rw [← h1]
        · rw [← h2, ← h3]
          exact hts
      · exact ⟨l, Or.inr hl, hmem⟩
    · rintro ⟨l, hl | hl, hmem⟩
      · left
        refine ⟨(tr, s), ?_, ?_⟩
        · have : l = wc.2 := congrArg Prod.snd hl
          rw [← this]
          exact hmem
        · have : wc.1 = w := (congrArg Prod.fst hl).symm
          rw [this]
      · exact Or.inr ⟨l, hl, hmem⟩

/-- `tierSelect` hits a given (word, record) exactly at the matching triple
with the matching classification. -/
theorem tierSelect_eq_some_iff (mf : String → String → Bool) (ff : String → String → ℚ)
    (ef : String → String → Nat) (minSim : ℚ) (cm : Bool) (t : Tier)
    (p : String × String × ℚ) (w tr : String) (s : ℚ) :
    tierSelect mf ff ef minSim cm t p = some (w, mkCandRec mf ff ef cm w tr s) ↔
      (p = (w, tr, s) ∧ ¬ s < minSim ∧
        classifyTier cm s (if cm then mf w tr else false) (ff w tr) = t) := by
  obtain ⟨pw, ptr, ps⟩ := p
  dsimp only [tierSelect, mkCandRec]
  by_cases h1 : ps < minSim
  · rw [if_pos h1]
    constructor
    · intro hx
      exact Option.noConfusion hx
    · rintro ⟨heq, hns, _⟩
      obtain ⟨e1, e2, e3⟩ : pw = w ∧ ptr = tr ∧ ps = s := by
        simpa [Prod.ext_iff] using heq
      subst e1; subst e2; subst e3
      exact absurd h1 hns
  · rw [if_neg h1]
    by_cases h2 : classifyTier cm ps (if cm then mf pw ptr else false) (ff pw ptr) = t
    · rw [if_pos h2, Option.some_inj]
      constructor
      · intro hx
        obtain ⟨e1, e2, e3, -⟩ :
            pw = w ∧ ptr = tr ∧ ps = s ∧
              (if cm then mf pw ptr else false) = (if cm then mf w tr else false) ∧
              ff pw ptr = ff w tr ∧ ef pw ptr = ef w tr := by
          simpa [Prod.ext_iff, CandRec.mk.injEq] using hx
        subst e1; subst e2; subst e3
        exact ⟨rfl, h1, h2⟩
      · rintro ⟨heq, _, _⟩
        obtain ⟨e1, e2, e3⟩ : pw = w ∧ ptr = tr ∧ ps = s := by
          simpa [Prod.ext_iff] using heq
        subst e1; subst e2; subst e3
        rfl
    · rw [if_neg h2]
      constructor
      · intro hx
        exact Option.noConfusion hx
      · rintro ⟨heq, _, hcl⟩
        obtain ⟨e1, e2, e3⟩ : pw = w ∧ ptr = tr ∧ ps = s := by
          simpa [Prod.ext_iff] using heq
        subst e1; subst e2; subst e3
        exact absurd hcl h2

/-- C1 (amended): a candidate lands in the `high` collection of
`filter_candidates` iff it occurs in the input, survives
`similarity ≥ min_similarity`, and satisfies `similarity > 0.7` AND
(mutual-NN true OR mutual checking disabled) AND `freq_ratio > 0.1`
(strict thresholds, and the frequency condition is a conjunct, not a
disjunct); `medium` iff it survives, is not high, and `similarity > 0.6`;
`low` otherwise among survivors. -/
theorem filterCandidates_tier_iff (mf : String → String → Bool) (ff : String → String → ℚ)
    (ef : String → String → Nat) (minSim : ℚ) (cm : Bool)
    (cands : List (String × List (String × ℚ))) (w tr : String) (s : ℚ) :
    ((w, mkCandRec mf ff ef cm w tr s) ∈ (filterCandidates mf ff ef minSim cm cands).1 ↔
      pairInCands cands w tr s ∧ ¬ s < minSim ∧
        (s > 7/10 ∧ ((if cm then mf w tr else false) = true ∨ cm = false) ∧ ff w tr > 1/10)) ∧
    ((w, mkCandRec mf ff ef cm w tr s) ∈ (filterCandidates mf ff ef minSim cm cands).2.1 ↔
      pairInCands cands w tr s ∧ ¬ s < minSim ∧
        ¬(s > 7/10 ∧ ((if cm then mf w tr else false) = true ∨ cm = false) ∧ ff w tr > 1/10) ∧
        s > 6/10) ∧
    ((w, mkCandRec mf ff ef cm w tr s) ∈ (filterCandidates mf ff ef minSim cm cands).2.2 ↔
      pairInCands cands w tr s ∧ ¬ s < minSim ∧
        ¬(s > 7/10 ∧ ((if cm then mf w tr else false) = true ∨ cm = false) ∧ ff w tr > 1/10) ∧
        ¬ s > 6/10) := by
  rw [filterCandidates_eq]
  refine ⟨?_, ?_, ?_⟩
  · simp only [List.mem_filterMap, tierSelect_eq_some_iff, classifyTier_eq_high_iff]
    constructor
    · rintro ⟨p, hp, rfl, hns, hcond⟩
      exact ⟨(mem_allPairs cands w tr s).mp hp, hns, hcond⟩
    · rintro ⟨hmem, hns, hcond⟩
      exact ⟨(w, tr, s), (mem_allPairs cands w tr s).mpr hmem, rfl, hns, hcond⟩
  · simp only [List.mem_filterMap, tierSelect_eq_some_iff, classifyTier_eq_medium_iff]
    constructor
    · rintro ⟨p, hp, rfl, hns, hcond⟩
      exact ⟨(mem_allPairs cands w tr s).mp hp, hns, hcond.1, hcond.2⟩
    · rintro ⟨hmem, hns, h1, h2⟩
      exact ⟨(w, tr, s), (mem_allPairs cands w tr s).mpr hmem, rfl, hns, h1, h2⟩
  · simp only [List.mem_filterMap, tierSelect_eq_some_iff, classifyTier_eq_low_iff]
    constructor
    · rintro ⟨p, hp, rfl, hns, hcond⟩
      exact ⟨(mem_allPairs cands w tr s).mp hp, hns, hcond.1, hcond.2⟩
    · rintro ⟨hmem, hns, h1, h2⟩
      exact ⟨(w, tr, s), (mem_allPairs cands w tr s).mpr hmem, rfl, hns, h1, h2⟩

/-- The stable argsort is sorted for the (value, index) comparison. -/
theorem argsortAsc_sorted (s : List ℚ) : (argsortAsc s).Pairwise (lexRank s) :=
  List.sorted_insertionSort (lexRank s) (List.range s.length)

/-- C2 (amended): the candidate list returned by `find_nearest_neighbors` is
sorted by descending score, and candidates with exactly equal score appear
in descending index order (the reverse of the stable ascending argsort) —
the code never consults the term strings to break ties. -/
theorem find_nearest_neighbors_ordering (vocab : List String) (sims : List ℚ) (k : Nat) :
    (topKIndices sims k).Pairwise
      (fun i j => sims.getD j 0 < sims.getD i 0 ∨ (sims.getD j 0 = sims.getD i 0 ∧ j ≤ i)) ∧
    (find_nearest_neighbors vocab sims k).Pairwise (fun p q => q.2 ≤ p.2) := by
  have h1 : (topKIndices sims k).Pairwise (flip (lexRank sims)) :=
    List.pairwise_reverse.mpr ((argsortAsc_sorted sims).drop)
  constructor
  · exact h1.imp (fun h => h)
  · unfold find_nearest_neighbors
    refine List.pairwise_map.mpr (h1.imp ?_)
    intro i j hij
    rcases hij with h | ⟨h, _⟩
    · exact le_of_lt h
    · exact le_of_eq h

/-- C2 counterexample: at two tied scores, the retrieval output lists the
terms in descending, not ascending, lexicographic order; the claimed
tie-break rule fails on this concrete run. -/
theorem find_nearest_neighbors_tie_cex :
    find_nearest_neighbors ["a", "b"] [1, 1] 2 = [("b", 1), ("a", 1)] ∧
      ¬ (find_nearest_neighbors ["a", "b"] [1, 1] 2).Pairwise
          (fun p q => p.2 = q.2 → p.1 ≤ q.1) := by
  have hout : find_nearest_neighbors ["a", "b"] [1, 1] 2 = [("b", 1), ("a", 1)] := by
    decide
  refine ⟨hout, ?_⟩
  rw [hout]
  intro hp
  have hba : ("b" : String) ≤ "a" :=
    (List.pairwise_cons.mp hp).1 ("a", 1) (by simp) rfl
  have hab : ("a" : String) < "b" := by
    rw [String.lt_iff_toList_lt]
    decide
  exact absurd hba (not_le.mpr hab)

/-- Reading a list back off the index range is the identity. -/
theorem map_getD_range (s : List ℚ) : (List.range s.length).map (fun i => s.getD i 0) = s := by
  apply List.ext_getElem
  · simp
  · intro i h1 h2
    simp [List.getD_eq_getElem?_getD, List.getElem?_eq_getElem h2]

/-- The stable argsort is a permutation of the index range. -/
theorem argsortAsc_perm (s : List ℚ) : List.Perm (argsortAsc s) (List.range s.length) :=
  List.perm_insertionSort _ _

/-- Reading the similarities along the reversed argsort yields exactly the
similarity values in descending sorted order. -/
theorem argsortAsc_reverse_map_eq (s : List ℚ) :
    ((argsortAsc s).reverse).map (fun i => s.getD i 0) = List.insertionSort (· ≥ ·) s := by
  have hperm : List.Perm (((argsortAsc s).reverse).map (fun i => s.getD i 0))
      (List.insertionSort (· ≥ ·) s) := by
    have h1 : List.Perm (((argsortAsc s).reverse).map (fun i => s.getD i 0)) s := by
      refine ((List.reverse_perm _).map _).trans ?_
      have h2 := (argsortAsc_perm s).map (fun i => s.getD i 0)
      rw [map_getD_range] at h2
      exact h2
    exact h1.trans (List.perm_insertionSort _ _).symm
  have hs1 : (((argsortAsc s).reverse).map (fun i => s.getD i 0)).Sorted (· ≥ ·) := by
    refine List.pairwise_map.mpr ?_
    refine (List.pairwise_reverse.mpr (argsortAsc_sorted s)).imp ?_
    intro a b hab
    rcases hab with h | ⟨h, _⟩
    · exact le_of_lt h
    · exact le_of_eq h
  have hs2 : (List.insertionSort (· ≥ ·) s).Sorted (· ≥ ·) :=
    List.sorted_insertionSort _ s
  exact List.eq_of_perm_of_sorted hperm hs1 hs2

/-- C3: every CSLS score is `2·cos − r` with `r` the mean of the query's
top-k raw cosine similarities, computed once per query (the same `r` for
every candidate `i`); concretely, with top-k mean `0.4` and raw cosine
`0.6` the score is `0.8`. -/
theorem csls_spec (sims : List ℚ) (k i : Nat) (hi : i < sims.length) :
    (csls sims k).getD i 0 = 2 * sims.getD i 0 - topkMeanHighest sims k ∧
      csls [3/5, 1/5] 2 = [4/5, 0] := by
  constructor
  · have hr : ((topKSel sims k).map (fun j => sims.getD j 0)).sum /
        ((topKSel sims k).length : ℚ) = topkMeanHighest sims k := by
      unfold topKSel topkMeanHighest
      have hlen : (argsortAsc sims).length = sims.length := by
        unfold argsortAsc
        rw [List.length_insertionSort, List.length_range]
      rw [List.map_take, argsortAsc_reverse_map_eq, List.length_take, List.length_take,
        List.length_reverse, hlen, List.length_insertionSort]
    simp only [csls]
    rw [hr]
    have h2 : i < (sims.map (fun x => 2 * x - topkMeanHighest sims k)).length := by
      simpa using hi
    rw [List.getD_eq_getElem?_getD, List.getElem?_eq_getElem h2, Option.getD_some,
      List.getElem_map, List.getD_eq_getElem?_getD, List.getElem?_eq_getElem hi,
      Option.getD_some]
  · norm_num [csls, topKSel, argsortAsc, lexRank, List.insertionSort, List.orderedInsert,
      List.getD_cons_zero, List.getD_cons_succ, List.range_succ]

/-- Witness for `csls_spec` at the concrete two-candidate pool. -/
theorem csls_spec_witness :
    (0 : Nat) < ([3/5, 1/5] : List ℚ).length ∧
      (csls [3/5, 1/5] 2).getD 0 0 = 2 * (([3/5, 1/5] : List ℚ).getD 0 0) -
        topkMeanHighest [3/5, 1/5] 2 :=
  ⟨by norm_num, (csls_spec [3/5, 1/5] 2 0 (by norm_num)).1⟩

/-- Levenshtein distance to the empty word on the right. -/
theorem levenshtein_nil_right (xs : List Char) : levenshtein xs [] = xs.length := by
  cases xs <;> simp [levenshtein]

/-- Levenshtein distance from the empty word on the left. -/
theorem levenshtein_nil_left (ys : List Char) : levenshtein [] ys = ys.length := by
  cases ys <;> simp [levenshtein]

/-- The cons-cons unfolding of `levenshtein`. -/
theorem levenshtein_cons_cons (x y : Char) (xs ys : List Char) :
    levenshtein (x :: xs) (y :: ys) =
      min ((if x = y then 0 else 1) + levenshtein xs ys)
        (min (1 + levenshtein xs (y :: ys)) (1 + levenshtein (x :: xs) ys)) := by
  rw [levenshtein]

/-- The Levenshtein distance is a lower bound on any edit script's cost. -/
theorem aligns_le {xs ys : List Char} {n : Nat} (h : Aligns xs ys n) :
    levenshtein xs ys ≤ n := by
  induction h with
  | nil => simp [levenshtein]
  | del x h ih =>
    rename_i xs' ys' n'
    cases ys' with
    | nil =>
      rw [levenshtein_nil_right] at ih ⊢
      simp only [List.length_cons]
      omega
    | cons y ys'' =>
      have h1 : levenshtein (x :: xs') (y :: ys'') ≤ 1 + levenshtein xs' (y :: ys'') := by
        rw [levenshtein_cons_cons]
        exact le_trans (min_le_right _ _) (min_le_left _ _)
      omega
  | ins y h ih =>
    rename_i xs' ys' n'
    cases xs' with
    | nil =>
      rw [levenshtein_nil_left] at ih ⊢
      simp only [List.length_cons]
      omega
    | cons x xs'' =>
      have h1 : levenshtein (x :: xs'') (y :: ys') ≤ 1 + levenshtein (x :: xs'') ys' := by
        rw [levenshtein_cons_cons]
        exact le_trans (min_le_right _ _) (min_le_right _ _)
      omega
  | sub x y h ih =>
    rename_i xs' ys' n'
    have h1 : levenshtein (x :: xs') (y :: ys') ≤ (if x = y then 0 else 1) + levenshtein xs' ys' := by
      rw [levenshtein_cons_cons]
      exact min_le_left _ _
    split_ifs at h1 ⊢ <;> omega

/-- There is an edit script realising the Levenshtein distance. -/
theorem aligns_lev : ∀ xs ys : List Char, Aligns xs ys (levenshtein xs ys)
  | [], [] => by
    have h : levenshtein [] [] = 0 := by simp [levenshtein]
    rw [h]
    exact Aligns.nil
  | [], y :: ys => by
    have h : levenshtein [] (y :: ys) = levenshtein [] ys + 1 := by
      rw [levenshtein_nil_left, levenshtein_nil_left]
      rfl
    rw [h]
    exact Aligns.ins y (aligns_lev [] ys)
  | x :: xs, [] => by
    have h : levenshtein (x :: xs) [] = levenshtein xs [] + 1 := by
      rw [levenshtein_nil_right, levenshtein_nil_right, List.length_cons]
    rw [h]
    exact Aligns.del x (aligns_lev xs [])
  | x :: xs, y :: ys => by
    rw [levenshtein_cons_cons]
    have a1 : Aligns (x :: xs) (y :: ys) ((if x = y then 0 else 1) + levenshtein xs ys) := by
      have := Aligns.sub x y (aligns_lev xs ys)
      rwa [Nat.add_comm] at this
    have a2 : Aligns (x :: xs) (y :: ys) (1 + levenshtein xs (y :: ys)) := by
      have := Aligns.del x (aligns_lev xs (y :: ys))
      rwa [Nat.add_comm] at this
    have a3 : Aligns (x :: xs) (y :: ys) (1 + levenshtein (x :: xs) ys) := by
      have := Aligns.ins y (aligns_lev (x :: xs) ys)
      rwa [Nat.add_comm] at this
    rcases min_choice ((if x = y then 0 else 1) + levenshtein xs ys)
        (min (1 + levenshtein xs (y :: ys)) (1 + levenshtein (x :: xs) ys)) with h | h <;>
      rw [h]
    · exact a1
    · rcases min_choice (1 + levenshtein xs (y :: ys)) (1 + levenshtein (x :: xs) ys) with
        h2 | h2 <;> rw [h2]
      · exact a2
      · exact a3
termination_by xs ys => xs.length + ys.length

/-- Appending a deleted character at the end of an edit script. -/
theorem aligns_snoc_del (x : Char) {xs ys : List Char} {n : Nat} (h : Aligns xs ys n) :
    Aligns (xs ++ [x]) ys (n + 1) := by
  induction h with
  | nil => exact Aligns.del x Aligns.nil
  | del x' h ih => exact Aligns.del x' ih
  | ins y' h ih => exact Aligns.ins y' ih
  | sub a b h ih =>
    rename_i xs' ys' n'
    have heq : n' + 1 + (if a = b then 0 else 1) = n' + (if a = b then 0 else 1) + 1 := by
      omega
    exact heq ▸ Aligns.sub a b ih

/-- Appending an inserted character at the end of an edit script. -/
theorem aligns_snoc_ins (y : Char) {xs ys : List Char} {n : Nat} (h : Aligns xs ys n) :
    Aligns xs (ys ++ [y]) (n + 1) := by
  induction h with
  | nil => exact Aligns.ins y Aligns.nil
  | del x' h ih => exact Aligns.del x' ih
  | ins y' h ih => exact Aligns.ins y' ih
  | sub a b h ih =>
    rename_i xs' ys' n'
    have heq : n' + 1 + (if a = b then 0 else 1) = n' + (if a = b then 0 else 1) + 1 := by
      omega
    exact heq ▸ Aligns.sub a b ih

/-- Appending a matched/substituted pair at the end of an edit script. -/
theorem aligns_snoc_sub (x y : Char) {xs ys : List Char} {n : Nat} (h : Aligns xs ys n) :
    Aligns (xs ++ [x]) (ys ++ [y]) (n + (if x = y then 0 else 1)) := by
  induction h with
  | nil => exact Aligns.sub x y Aligns.nil
  | del x' h ih =>
    rename_i xs' ys' n'
    have heq : n' + (if x = y then 0 else 1) + 1 = n' + 1 + (if x = y then 0 else 1) := by
      omega
    exact heq ▸ Aligns.del x' ih
  | ins y' h ih =>
    rename_i xs' ys' n'
    have heq : n' + (if x = y then 0 else 1) + 1 = n' + 1 + (if x = y then 0 else 1) := by
      omega
    exact heq ▸ Aligns.ins y' ih
  | sub a b h ih =>
    rename_i xs' ys' n'
    have heq : n' + (if x = y then 0 else 1) + (if a = b then 0 else 1) =
        n' + (if a = b then 0 else 1) + (if x = y then 0 else 1) := by
      omega
    exact heq ▸ Aligns.sub a b ih

/-- Edit scripts reverse. -/
theorem aligns_reverse {xs ys : List Char} {n : Nat} (h : Aligns xs ys n) :
    Aligns xs.reverse ys.reverse n := by
  induction h with
  | nil => exact Aligns.nil
  | del x h ih =>
    rw [List.reverse_cons]
    exact aligns_snoc_del x ih
  | ins y h ih =>
    rw [List.reverse_cons]
    exact aligns_snoc_ins y ih
  | sub x y h ih =>
    rw [List.reverse_cons, List.reverse_cons]
    exact aligns_snoc_sub x y ih

/-- The Levenshtein distance is invariant under reversing both words. -/
theorem levenshtein_reverse (xs ys : List Char) :
    levenshtein xs.reverse ys.reverse = levenshtein xs ys := by
  apply le_antisymm
  · exact aligns_le (aligns_reverse (aligns_lev xs ys))
  · have h := aligns_le (aligns_reverse (aligns_lev xs.reverse ys.reverse))
    simpa using h

/-- The Levenshtein distance is symmetric. -/
theorem levenshtein_comm : ∀ xs ys : List Char, levenshtein xs ys = levenshtein ys xs
  | [], ys => by rw [levenshtein_nil_left, levenshtein_nil_right]
  | x :: xs, [] => by rw [levenshtein_nil_left, levenshtein_nil_right]
  | x :: xs, y :: ys => by
    rw [levenshtein_cons_cons, levenshtein_cons_cons, levenshtein_comm xs ys,
      levenshtein_comm xs (y :: ys), levenshtein_comm (x :: xs) ys]
    have hc : (if x = y then 0 else 1) = (if y = x then (0 : Nat) else 1) := by
      by_cases h : x = y
      · subst h
        rfl
      · rw [if_neg h, if_neg (fun hh => h hh.symm)]
    rw [hc]
    omega
termination_by xs ys => xs.length + ys.length

/-- The Levenshtein distance vanishes exactly on equal words. -/
theorem levenshtein_eq_zero_iff : ∀ xs ys : List Char, levenshtein xs ys = 0 ↔ xs = ys
  | [], ys => by
    rw [levenshtein_nil_left]
    simp [List.length_eq_zero, eq_comm]
  | x :: xs, [] => by
    rw [levenshtein_nil_right]
    simp
  | x :: xs, y :: ys => by
    rw [levenshtein_cons_cons]
    constructor
    · intro h
      rw [Nat.min_eq_zero_iff, Nat.min_eq_zero_iff] at h
      rcases h with h | h | h
      · by_cases hxy : x = y
        · subst hxy
          rw [if_pos rfl, Nat.zero_add] at h
          have hx := (levenshtein_eq_zero_iff xs ys).mp h
          rw [hx]
        · rw [if_neg hxy] at h
          omega
      · omega
      · omega
    · intro h
      injection h with h1 h2
      subst h1
      subst h2
      have h0 : levenshtein xs xs = 0 := (levenshtein_eq_zero_iff xs xs).mpr rfl
      simp [h0]
termination_by xs ys => xs.length + ys.length

/-- The head of an expected row is the distance at the current split. -/
theorem expRow_headD (P B v : List Char) : (expRow P B v).headD 0 = levenshtein P B := by
  cases v <;> rfl

/-- The inner loop turns the expected row for `P` into the expected row for
`c1 :: P`, provided the first cell is correct. -/
theorem buildRow_expRow (c1 : Char) (P : List Char) :
    ∀ v B : List Char,
      buildRow c1 v (expRow P B v) (levenshtein (c1 :: P) B) = expRow (c1 :: P) B v := by
  intro v
  induction v with
  | nil => intro B; rfl
  | cons c2 v' ih =>
    intro B
    show buildRow c1 (c2 :: v') (levenshtein P B :: expRow P (c2 :: B) v')
        (levenshtein (c1 :: P) B) = expRow (c1 :: P) B (c2 :: v')
    rw [buildRow]
    simp only [List.tail_cons, List.headD_cons]
    have hmin : min ((expRow P (c2 :: B) v').headD 0 + 1)
        (min (levenshtein (c1 :: P) B + 1)
          (levenshtein P B + (if c1 = c2 then 0 else 1))) =
        levenshtein (c1 :: P) (c2 :: B) := by
      rw [expRow_headD, levenshtein_cons_cons]
      by_cases h : c1 = c2 <;> simp only [h, if_pos, if_neg, if_true, if_false] <;> omega
    rw [hmin, ih (c2 :: B)]
    rfl

/-- The outer loop carries the expected row across the whole first word. -/
theorem dpLoop_expRow (w2 : List Char) :
    ∀ (w1rem P : List Char) (i : Nat), i = P.length →
      dpLoop w2 w1rem i (expRow P [] w2) = expRow (w1rem.reverse ++ P) [] w2 := by
  intro w1rem
  induction w1rem with
  | nil => intro P i hi; rfl
  | cons c1 rest ih =>
    intro P i hi
    subst hi
    show dpLoop w2 rest (P.length + 1) (buildRow c1 w2 (expRow P [] w2) (P.length + 1)) = _
    have h1 : buildRow c1 w2 (expRow P [] w2) (P.length + 1) = expRow (c1 :: P) [] w2 := by
      have h : levenshtein (c1 :: P) [] = P.length + 1 := by
        rw [levenshtein_nil_right, List.length_cons]
      rw [← h]
      exact buildRow_expRow c1 P w2 []
    rw [h1, ih (c1 :: P) (P.length + 1) rfl, List.reverse_cons, List.append_assoc]
    rfl

/-- The last cell of an expected row is the distance over the full second
word. -/
theorem expRow_getLastD (P : List Char) :
    ∀ (v B : List Char) (d : Nat),
      (expRow P B v).getLastD d = levenshtein P (v.reverse ++ B) := by
  intro v
  induction v with
  | nil => intro B d; rfl
  | cons c2 v' ih =>
    intro B d
    show (levenshtein P B :: expRow P (c2 :: B) v').getLastD d = _
    rw [List.getLastD_cons, ih (c2 :: B) (levenshtein P B), List.reverse_cons,
      List.append_assoc]
    rfl

/-- The initial `range(len(word2) + 1)` row is the expected row for the
empty prefix. -/
theorem expRow_nil_eq_range' :
    ∀ v B : List Char, expRow [] B v = List.range' B.length (v.length + 1) := by
  intro v
  induction v with
  | nil =>
    intro B
    show [levenshtein [] B] = _
    rw [levenshtein_nil_left]
    show [B.length] = List.range' B.length 1
    rw [List.range'_one]
  | cons c2 v' ih =>
    intro B
    show levenshtein [] B :: expRow [] (c2 :: B) v' = _
    rw [levenshtein_nil_left, ih (c2 :: B)]
    show B.length :: List.range' (B.length + 1) (v'.length + 1) =
      List.range' B.length (v'.length + 1 + 1)
    rw [← List.range'_succ]

/-- `compute_edit_distance` agrees with the Levenshtein distance when no
swap happens. -/
theorem compute_edit_distance_of_not_lt (w1 w2 : List Char)
    (h : ¬ w1.length < w2.length) :
    compute_edit_distance w1 w2 = levenshtein w1 w2 := by
  rw [compute_edit_distance, dif_neg h]
  by_cases h2 : w2.length = 0
  · rw [if_pos h2]
    have hw : w2 = [] := List.length_eq_zero.mp h2
    subst hw
    rw [levenshtein_nil_right]
  · rw [if_neg h2]
    have hinit : List.range (w2.length + 1) = expRow [] [] w2 := by
      rw [expRow_nil_eq_range', List.range_eq_range']
      rfl
    rw [hinit, dpLoop_expRow w2 w1 [] 0 rfl, expRow_getLastD, List.append_nil,
      List.append_nil, levenshtein_reverse]

/-- `compute_edit_distance` agrees with the Levenshtein distance. -/
theorem compute_edit_distance_eq_levenshtein (w1 w2 : List Char) :
    compute_edit_distance w1 w2 = levenshtein w1 w2 := by
  by_cases h : w1.length < w2.length
  · rw [compute_edit_distance, dif_pos h,
      compute_edit_distance_of_not_lt w2 w1 (by omega), levenshtein_comm]
  · exact compute_edit_distance_of_not_lt w1 w2 h

/-- C10: `compute_edit_distance` returns the Levenshtein distance, is
symmetric, returns `len(a)` on an empty second word, and returns `0`
exactly on equal words. -/
theorem compute_edit_distance_spec (a b : List Char) :
    compute_edit_distance a b = levenshtein a b ∧
      compute_edit_distance a b = compute_edit_distance b a ∧
      compute_edit_distance a [] = a.length ∧
      (compute_edit_distance a b = 0 ↔ a = b) := by
  refine ⟨compute_edit_distance_eq_levenshtein a b, ?_, ?_, ?_⟩
  · rw [compute_edit_distance_eq_levenshtein, compute_edit_distance_eq_levenshtein,
      levenshtein_comm]
  · rw [compute_edit_distance_eq_levenshtein, levenshtein_nil_right]
  · rw [compute_edit_distance_eq_levenshtein]
    exact levenshtein_eq_zero_iff a b

/-- A found rank is always at least 1 (it is an index plus one). -/
theorem rankOf_pos {nbrs : List (String × ℚ)} {expected : List String} {r : Nat}
    (h : rankOf nbrs expected = some r) : 1 ≤ r := by
  unfold rankOf at h
  obtain ⟨e, _, he⟩ := List.exists_of_findSome?_eq_some h
  obtain ⟨idx, _, hidx⟩ := Option.map_eq_some'.mp he
  omega

/-- The evaluation loop, from any starting counters: each counter is the
start value plus a count (or concatenation) of per-entry contributions. -/
theorem evalFold_char (nn : List (String × List (String × ℚ)))
    (seed : List (String × List String)) :
    ∀ acc : EvalCounters,
      seed.foldl (evalStep nn) acc =
        ⟨acc.p1Count + seed.countP (pkPred nn 1),
         acc.p5Count + seed.countP (pkPred nn 5),
         acc.p10Count + seed.countP (pkPred nn 10),
         acc.rrs ++ seed.filterMap (rrContribution nn),
         acc.evaluated + seed.countP (queriedPred nn)⟩ := by
  induction seed with
  | nil =>
    intro acc
    cases acc
    simp
  | cons e rest ih =>
    intro acc
    rw [List.foldl_cons, ih]
    cases hl : List.lookup e.1 nn with
    | none =>
      simp [evalStep, hl, pkPred, rrContribution, queriedPred, List.countP_cons,
        List.filterMap_cons]
    | some nbrs =>
      cases hr : rankOf nbrs e.2 with
      | none =>
        simp [evalStep, hl, hr, pkPred, rrContribution, queriedPred, List.countP_cons,
          List.filterMap_cons]
        omega
      | some r =>
        have hpos : 1 ≤ r := rankOf_pos hr
        have h1 : (if r = 1 then 1 else 0) = (if r ≤ 1 then 1 else 0) := by
          split_ifs <;> omega
        simp [evalStep, hl, hr, pkPred, rrContribution, queriedPred, List.countP_cons,
          List.filterMap_cons, h1]
        refine ⟨by omega, by omega, by omega, by omega⟩

/-- Counting towards `P@k` is monotone in `k`. -/
theorem pkPred_mono (nn : List (String × List (String × ℚ))) {k1 k2 : Nat} (hk : k1 ≤ k2)
    (e : String × List String) (h : pkPred nn k1 e = true) : pkPred nn k2 e = true := by
  unfold pkPred at h ⊢
  cases hl : (List.lookup e.1 nn).bind (fun nbrs => rankOf nbrs e.2) with
  | none =>
    rw [hl] at h
    simp at h
  | some r =>
    rw [hl] at h
    simp at h ⊢
    omega

/-- C7: for every evaluation run, `P@1 ≤ P@5 ≤ P@10` (both for
`evaluate_on_seed_dictionary` and for `evaluate_alignment`); each `P@k`
numerator counts exactly the queried seed entries with found rank `≤ k`,
the reciprocal-rank list collects `1/rank` (or `0`) per queried entry, and
a queried entry none of whose expected translations appears among its
predictions contributes reciprocal rank `0` and is excluded from every
`P@k` numerator. -/
theorem evaluation_spec (nn : List (String × List (String × ℚ)))
    (seed : List (String × List String)) (sims : List (List ℚ)) :
    ((evaluate_on_seed_dictionary nn seed).p1 ≤ (evaluate_on_seed_dictionary nn seed).p5 ∧
      (evaluate_on_seed_dictionary nn seed).p5 ≤ (evaluate_on_seed_dictionary nn seed).p10) ∧
    (evalFold nn seed).p1Count = seed.countP (pkPred nn 1) ∧
    (evalFold nn seed).p5Count = seed.countP (pkPred nn 5) ∧
    (evalFold nn seed).p10Count = seed.countP (pkPred nn 10) ∧
    (evalFold nn seed).rrs = seed.filterMap (rrContribution nn) ∧
    (evalFold nn seed).evaluated = seed.countP (queriedPred nn) ∧
    (∀ (e : String × List String) (nbrs : List (String × ℚ)),
      List.lookup e.1 nn = some nbrs → rankOf nbrs e.2 = none →
        rrContribution nn e = some 0 ∧ ∀ k, pkPred nn k e = false) ∧
    (evaluate_alignment_pk sims 1 ≤ evaluate_alignment_pk sims 5 ∧
      evaluate_alignment_pk sims 5 ≤ evaluate_alignment_pk sims 10) := by
  have hchar := evalFold_char nn seed ⟨0, 0, 0, [], 0⟩
  have hc : evalFold nn seed =
      ⟨seed.countP (pkPred nn 1), seed.countP (pkPred nn 5), seed.countP (pkPred nn 10),
       seed.filterMap (rrContribution nn), seed.countP (queriedPred nn)⟩ := by
    rw [evalFold, hchar]
    simp
  have hmono : ∀ k1 k2 : Nat, k1 ≤ k2 →
      seed.countP (pkPred nn k1) ≤ seed.countP (pkPred nn k2) := by
    intro k1 k2 hk
    exact List.countP_mono_left (fun e _ h => pkPred_mono nn hk e h)
  refine ⟨?_, by rw [hc], by rw [hc], by rw [hc], by rw [hc], by rw [hc], ?_, ?_⟩
  · have key : ∀ c : EvalCounters, c.p1Count ≤ c.p5Count → c.p5Count ≤ c.p10Count →
        ((if 0 < c.evaluated then (c.p1Count : ℚ) / (c.evaluated : ℚ) else 0) ≤
            (if 0 < c.evaluated then (c.p5Count : ℚ) / (c.evaluated : ℚ) else 0) ∧
          (if 0 < c.evaluated then (c.p5Count : ℚ) / (c.evaluated : ℚ) else 0) ≤
            (if 0 < c.evaluated then (c.p10Count : ℚ) / (c.evaluated : ℚ) else 0)) := by
      intro c h15 h510
      by_cases hev : 0 < c.evaluated
      · simp only [if_pos hev]
        have hevQ : (0 : ℚ) < (c.evaluated : ℚ) := by exact_mod_cast hev
        constructor
        · refine (div_le_div_iff_of_pos_right hevQ).mpr ?_
          exact_mod_cast h15
        · refine (div_le_div_iff_of_pos_right hevQ).mpr ?_
          exact_mod_cast h510
      · simp only [if_neg hev]
        exact ⟨le_refl 0, le_refl 0⟩
    exact key (evalFold nn seed)
      (by rw [hc]; exact hmono 1 5 (by omega))
      (by rw [hc]; exact hmono 5 10 (by omega))
  · intro e nbrs hl hr
    refine ⟨?_, ?_⟩
    · simp [rrContribution, hl, hr]
    · intro k
      simp [pkPred, hl, hr]
  · have hcount : ∀ k1 k2 : Nat, k1 ≤ k2 →
        (correct_ranks sims).countP (fun r => decide (r < k1)) ≤
          (correct_ranks sims).countP (fun r => decide (r < k2)) := by
      intro k1 k2 hk
      refine List.countP_mono_left ?_
      intro r _ h
      simp only [decide_eq_true_eq] at h ⊢
      omega
    unfold evaluate_alignment_pk
    rcases Nat.eq_zero_or_pos sims.length with hn | hn
    · rw [hn]
      norm_num
    · have hnQ : (0 : ℚ) < (sims.length : ℚ) := by exact_mod_cast hn
      constructor
      · refine (div_le_div_iff_of_pos_right hnQ).mpr ?_
        exact_mod_cast hcount 1 5 (by omega)
      · refine (div_le_div_iff_of_pos_right hnQ).mpr ?_
        exact_mod_cast hcount 5 10 (by omega)

/-- Witness for `evaluation_spec`: a concrete run in which the single seed
entry was queried but its expected translation is absent. -/
theorem evaluation_spec_witness :
    (evaluate_on_seed_dictionary [("x", [("y", 1)])] [("x", ["z"])]).p1 ≤
        (evaluate_on_seed_dictionary [("x", [("y", 1)])] [("x", ["z"])]).p5 ∧
      rrContribution [("x", [("y", 1)])] ("x", ["z"]) = some 0 ∧
      pkPred [("x", [("y", 1)])] 10 ("x", ["z"]) = false := by
  have h := evaluation_spec [("x", [("y", 1)])] [("x", ["z"])] [[1]]
  have habs := h.2.2.2.2.2.2.1 ("x", ["z"]) [("y", 1)] (by decide) (by decide)
  exact ⟨h.1.1, habs.1, habs.2 10⟩

/-- C4: with orthogonal SVD factors, the Procrustes transform `W = U·Vᵗ`
satisfies `Wᵗ·W = I` exactly, so `‖Wᵗ·W − I‖ < ε` for every positive
tolerance. -/
theorem procrustes_orthogonal {n : Nat} (U Vt : Matrix (Fin n) (Fin n) ℚ)
    (hU : Uᵀ * U = 1) (hVt : Vt * Vtᵀ = 1) (ε : ℚ) (hε : 0 < ε) :
    (learn_procrustes_alignment U Vt)ᵀ * learn_procrustes_alignment U Vt = 1 ∧
      frobSq ((learn_procrustes_alignment U Vt)ᵀ * learn_procrustes_alignment U Vt - 1) < ε := by
  have h1 : (U * Vt)ᵀ * (U * Vt) = 1 := by
    rw [Matrix.transpose_mul, Matrix.mul_assoc, ← Matrix.mul_assoc Uᵀ U Vt, hU,
      Matrix.one_mul]
    exact Matrix.mul_eq_one_comm.mp hVt
  constructor
  · exact h1
  · have h2 : (learn_procrustes_alignment U Vt)ᵀ * learn_procrustes_alignment U Vt - 1 =
        (0 : Matrix (Fin n) (Fin n) ℚ) := by
      rw [learn_procrustes_alignment, h1]
      exact sub_self 1
    rw [h2]
    have h3 : frobSq (0 : Matrix (Fin n) (Fin n) ℚ) = 0 := by
      simp [frobSq]
    rw [h3]
    exact hε

/-- Witness for `procrustes_orthogonal` with identity SVD factors in two
dimensions and tolerance `1`. -/
theorem procrustes_orthogonal_witness :
    (learn_procrustes_alignment (1 : Matrix (Fin 2) (Fin 2) ℚ) 1)ᵀ *
        learn_procrustes_alignment (1 : Matrix (Fin 2) (Fin 2) ℚ) 1 = 1 ∧
      frobSq ((learn_procrustes_alignment (1 : Matrix (Fin 2) (Fin 2) ℚ) 1)ᵀ *
        learn_procrustes_alignment (1 : Matrix (Fin 2) (Fin 2) ℚ) 1 - 1) < 1 :=
  procrustes_orthogonal 1 1 (by simp) (by simp) 1 (by norm_num)

/-- Reading a row other than the one just written. -/
theorem getD_set_ne (l : List Vec) (i j : Nat) (a : Vec) (h : i ≠ j) :
    (l.set i a).getD j [] = l.getD j [] := by
  rw [List.getD_eq_getElem?_getD, List.getD_eq_getElem?_getD, List.getElem?_set_ne h]

/-- One step of the source-update loop. -/
theorem updateIdo_cons (α : ℝ) (epo : List Vec) (p : Nat × Nat) (rest : List (Nat × Nat))
    (ido : List Vec) :
    updateIdo α epo (p :: rest) ido =
      updateIdo α epo rest
        (if p.1 < ido.length ∧ p.2 < epo.length then
          ido.set p.1 (mix α (ido.getD p.1 []) (epo.getD p.2 []))
        else ido) := rfl

/-- One step of the target-update loop. -/
theorem updateEpo_cons (α : ℝ) (ido : List Vec) (p : Nat × Nat) (rest : List (Nat × Nat))
    (epo : List Vec) :
    updateEpo α ido (p :: rest) epo =
      updateEpo α ido rest
        (if p.1 < ido.length ∧ p.2 < epo.length then
          epo.set p.2 (mix α (epo.getD p.2 []) (ido.getD p.1 []))
        else epo) := rfl

/-- The source-update loop preserves the matrix shape. -/
theorem updateIdo_length (α : ℝ) (epo : List Vec) :
    ∀ (pairs : List (Nat × Nat)) (ido : List Vec),
      (updateIdo α epo pairs ido).length = ido.length := by
  intro pairs
  induction pairs with
  | nil => intro ido; rfl
  | cons p rest ih =>
    intro ido
    rw [updateIdo_cons, ih]
    by_cases hc : p.1 < ido.length ∧ p.2 < epo.length
    · rw [if_pos hc, List.length_set]
    · rw [if_neg hc]

/-- The target-update loop preserves the matrix shape. -/
theorem updateEpo_length (α : ℝ) (ido : List Vec) :
    ∀ (pairs : List (Nat × Nat)) (epo : List Vec),
      (updateEpo α ido pairs epo).length = epo.length := by
  intro pairs
  induction pairs with
  | nil => intro epo; rfl
  | cons p rest ih =>
    intro epo
    rw [updateEpo_cons, ih]
    by_cases hc : p.1 < ido.length ∧ p.2 < epo.length
    · rw [if_pos hc, List.length_set]
    · rw [if_neg hc]

/-- A source row touched by none of the pairs is left unchanged. -/
theorem updateIdo_getD_ne (α : ℝ) (epo : List Vec) :
    ∀ (pairs : List (Nat × Nat)) (ido : List Vec) (j : Nat),
      (∀ q ∈ pairs, q.1 ≠ j) →
      (updateIdo α epo pairs ido).getD j [] = ido.getD j [] := by
  intro pairs
  induction pairs with
  | nil => intro ido j _; rfl
  | cons p rest ih =>
    intro ido j h
    rw [updateIdo_cons, ih _ j (fun q hq => h q (List.mem_cons_of_mem p hq))]
    by_cases hc : p.1 < ido.length ∧ p.2 < epo.length
    · rw [if_pos hc]
      exact getD_set_ne ido p.1 j _ (h p (List.mem_cons_self p rest))
    · rw [if_neg hc]

/-- The source-update loop does not see a target row none of its pairs
reads. -/
theorem updateIdo_epo_set (α : ℝ) (epo : List Vec) (t : Nat) (v : Vec) :
    ∀ (pairs : List (Nat × Nat)) (ido : List Vec),
      (∀ q ∈ pairs, q.2 ≠ t) →
      updateIdo α (epo.set t v) pairs ido = updateIdo α epo pairs ido := by
  intro pairs
  induction pairs with
  | nil => intro ido _; rfl
  | cons p rest ih =>
    intro ido h
    rw [updateIdo_cons, updateIdo_cons, ih _ (fun q hq => h q (List.mem_cons_of_mem p hq))]
    have hlen : (epo.set t v).length = epo.length := List.length_set epo t v
    by_cases hc : p.1 < ido.length ∧ p.2 < epo.length
    · rw [if_pos (by rw [hlen]; exact hc), if_pos hc,
        getD_set_ne epo t p.2 v (fun he => h p (List.mem_cons_self p rest) he.symm)]
    · rw [if_neg (by rw [hlen]; exact hc), if_neg hc]

/-- The per-pair interleaved procedure of the specification coincides with
the code's two-phase iteration whenever no source index and no target
index occurs in two different seed pairs. -/
theorem claimed_fold_eq_twophase (α : ℝ) :
    ∀ (pairs : List (Nat × Nat)) (ido epo : List Vec),
      pairs.Pairwise (fun p q => p.1 ≠ q.1 ∧ p.2 ≠ q.2) →
      pairs.foldl
        (fun st p =>
          if p.1 < st.1.length ∧ p.2 < st.2.length then
            let ido' := st.1.set p.1 (mix α (st.1.getD p.1 []) (st.2.getD p.2 []))
            (ido', st.2.set p.2 (mix α (st.2.getD p.2 []) (ido'.getD p.1 [])))
          else st)
        (ido, epo) =
      (updateIdo α epo pairs ido, updateEpo α (updateIdo α epo pairs ido) pairs epo) := by
  intro pairs
  induction pairs with
  | nil => intro ido epo _; rfl
  | cons p rest ih =>
    intro ido epo hd
    have hp : ∀ q ∈ rest, p.1 ≠ q.1 ∧ p.2 ≠ q.2 := (List.pairwise_cons.mp hd).1
    have hrest := (List.pairwise_cons.mp hd).2
    rw [List.foldl_cons]
    dsimp only
    by_cases hc : p.1 < ido.length ∧ p.2 < epo.length
    · rw [if_pos hc,
        ih (ido.set p.1 (mix α (ido.getD p.1 []) (epo.getD p.2 [])))
          (epo.set p.2 (mix α (epo.getD p.2 [])
            ((ido.set p.1 (mix α (ido.getD p.1 []) (epo.getD p.2 []))).getD p.1 [])))
          hrest]
      have hI : updateIdo α epo (p :: rest) ido =
          updateIdo α epo rest (ido.set p.1 (mix α (ido.getD p.1 []) (epo.getD p.2 []))) := by
        rw [updateIdo_cons, if_pos hc]
      have hIE : updateIdo α
            (epo.set p.2 (mix α (epo.getD p.2 [])
              ((ido.set p.1 (mix α (ido.getD p.1 []) (epo.getD p.2 []))).getD p.1 [])))
            rest (ido.set p.1 (mix α (ido.getD p.1 []) (epo.getD p.2 []))) =
          updateIdo α epo rest (ido.set p.1 (mix α (ido.getD p.1 []) (epo.getD p.2 []))) :=
        updateIdo_epo_set α epo p.2 _ rest _ (fun q hq => ((hp q hq).2).symm)
      have hgetD : (updateIdo α epo rest
            (ido.set p.1 (mix α (ido.getD p.1 []) (epo.getD p.2 [])))).getD p.1 [] =
          (ido.set p.1 (mix α (ido.getD p.1 []) (epo.getD p.2 []))).getD p.1 [] :=
        updateIdo_getD_ne α epo rest _ p.1 (fun q hq => ((hp q hq).1).symm)
      have hE : updateEpo α (updateIdo α epo (p :: rest) ido) (p :: rest) epo =
          updateEpo α (updateIdo α epo rest
              (ido.set p.1 (mix α (ido.getD p.1 []) (epo.getD p.2 []))))
            rest
            (epo.set p.2 (mix α (epo.getD p.2 [])
              ((ido.set p.1 (mix α (ido.getD p.1 []) (epo.getD p.2 []))).getD p.1 []))) := by
        rw [hI, updateEpo_cons]
        have hcond : p.1 < (updateIdo α epo rest
            (ido.set p.1 (mix α (ido.getD p.1 []) (epo.getD p.2 [])))).length ∧
            p.2 < epo.length := by
          rw [updateIdo_length, List.length_set]
          exact hc
        rw [if_pos hcond, hgetD]
      rw [hIE, hE, hI]
    · rw [if_neg hc, ih ido epo hrest]
      have hI : updateIdo α epo (p :: rest) ido = updateIdo α epo rest ido := by
        rw [updateIdo_cons, if_neg hc]
      have hE : updateEpo α (updateIdo α epo rest ido) (p :: rest) epo =
          updateEpo α (updateIdo α epo rest ido) rest epo := by
        rw [updateEpo_cons]
        have hcond : ¬(p.1 < (updateIdo α epo rest ido).length ∧ p.2 < epo.length) := by
          rw [updateIdo_length]
          exact hc
        rw [if_neg hcond]
      rw [hI, hE]

/-- C5 (amended): one retrofitting iteration performs all source updates
`source[s] ← (1−α)·source[s] + α·target[t]` over the seed pairs in order,
then all target updates `target[t] ← (1−α)·target[t] + α·source[s]` in
order against the already-updated source matrix, then rescales every row
`v` of both matrices by `1/(‖v‖ + 1e-8)` (approximately, not exactly, unit
length); when every source index and every target index occurs in at most
one seed pair, this coincides with the claim's per-pair interleaved
procedure. -/
theorem retrofit_iteration_eq_claimed (α : ℝ) (pairs : List (Nat × Nat))
    (st : List Vec × List Vec)
    (hdist : pairs.Pairwise (fun p q => p.1 ≠ q.1 ∧ p.2 ≠ q.2)) :
    retrofitIteration α pairs st = retrofitIterationClaimed α pairs st := by
  obtain ⟨ido, epo⟩ := st
  unfold retrofitIteration retrofitIterationClaimed
  rw [claimed_fold_eq_twophase α pairs ido epo hdist]

/-- Witness for `retrofit_iteration_eq_claimed` at two disjoint seed
pairs. -/
theorem retrofit_iteration_eq_claimed_witness :
    retrofitIteration (1/2) [(0, 0), (1, 1)] ([[0], [0]], [[1], [1]]) =
      retrofitIterationClaimed (1/2) [(0, 0), (1, 1)] ([[0], [0]], [[1], [1]]) :=
  retrofit_iteration_eq_claimed (1/2) [(0, 0), (1, 1)] ([[0], [0]], [[1], [1]])
    (by simp)

/-- C5 counterexample: with two seed pairs sharing the target index `0`
(source rows `[0], [0]`, the single target row `[1]`, `α = 1/2`), the
code's two-phase iteration and the claim's per-pair interleaved procedure
produce different source matrices: the second source row becomes
`(1/2)/(1/2+1e-8)` under the code but `(3/8)/(3/8+1e-8)` under the
claim. -/
theorem retrofit_iteration_order_cex :
    retrofitIteration (1/2) [(0, 0), (1, 0)] ([[0], [0]], [[1]]) ≠
      retrofitIterationClaimed (1/2) [(0, 0), (1, 0)] ([[0], [0]], [[1]]) := by
  have hcode : (retrofitIteration (1/2) [(0, 0), (1, 0)]
      ([[0], [0]], [[1]])).1.getD 1 [] = [(1/2 : ℝ) / (1/2 + normEps)] := by
    have hupd : updateIdo (1/2) [[1]] [(0, 0), (1, 0)] [[0], [0]] =
        [[(1/2 : ℝ)], [(1/2 : ℝ)]] := by
      norm_num [updateIdo, mix, List.set, List.getD]
    have hsq : Real.sqrt (((1/2 : ℝ)) * (1/2) + 0) = 1/2 := by
      rw [show ((1/2 : ℝ)) * (1/2) + 0 = (1/2)^2 by norm_num,
        Real.sqrt_sq (by norm_num : (0:ℝ) ≤ 1/2)]
    show (normalizeRows (updateIdo (1/2) [[1]] [(0, 0), (1, 0)] [[0], [0]])).getD 1 [] = _
    rw [hupd]
    simp only [normalizeRows, rowNorm, List.map_cons, List.map_nil, List.sum_cons,
      List.sum_nil, List.getD_cons_succ, List.getD_cons_zero, hsq]
  have hclaim : (retrofitIterationClaimed (1/2) [(0, 0), (1, 0)]
      ([[0], [0]], [[1]])).1.getD 1 [] = [(3/8 : ℝ) / (3/8 + normEps)] := by
    have hupd : ([(0, 0), (1, 0)] : List (Nat × Nat)).foldl
        (fun (st : List Vec × List Vec) p =>
          if p.1 < st.1.length ∧ p.2 < st.2.length then
            let ido' := st.1.set p.1 (mix (1/2) (st.1.getD p.1 []) (st.2.getD p.2 []))
            (ido', st.2.set p.2 (mix (1/2) (st.2.getD p.2 []) (ido'.getD p.1 [])))
          else st)
        ([[0], [0]], [[1]]) = ([[(1/2 : ℝ)], [(3/8 : ℝ)]], [[(9/16 : ℝ)]]) := by
      norm_num [mix, List.set, List.getD]
    have hsq : Real.sqrt (((3/8 : ℝ)) * (3/8) + 0) = 3/8 := by
      rw [show ((3/8 : ℝ)) * (3/8) + 0 = (3/8)^2 by norm_num,
        Real.sqrt_sq (by norm_num : (0:ℝ) ≤ 3/8)]
    show (normalizeRows (([(0, 0), (1, 0)] : List (Nat × Nat)).foldl _ ([[0], [0]], [[1]])).1).getD 1 [] = _
    rw [hupd]
    simp only [normalizeRows, rowNorm, List.map_cons, List.map_nil, List.sum_cons,
      List.sum_nil, List.getD_cons_succ, List.getD_cons_zero, hsq]
  intro h
  rw [h, hclaim] at hcode
  have hval : (3/8 : ℝ) / (3/8 + normEps) = (1/2 : ℝ) / (1/2 + normEps) := by
    have := congrArg (fun l : Vec => l.getD 0 0) hcode
    simpa using this
  rw [normEps] at hval
  norm_num at hval

/-- C8: `load_seed_dictionary` keeps exactly the (lower-cased) pairs whose
two words are in their vocabularies, counting every dropped pair in the
skip counter and never failing; and on an empty usable seed set the
retrofitting solver fails rather than producing evolved matrices: the
tracked seed similarity is the bare `0.0` and the end-of-run improvement
diagnostic's division raises, while a non-empty usable seed set returns
the evolved matrices. -/
theorem seed_filter_spec (pairs : List (String × String)) (iv ev : List String)
    (iters : Nat) (α : ℝ) (ido epo : List Vec) (ipairs : List (Nat × Nat)) :
    (load_seed_dictionary pairs iv ev).1.length + (load_seed_dictionary pairs iv ev).2 =
        pairs.length ∧
      (∀ q : String × String,
        q ∈ (load_seed_dictionary pairs iv ev).1 ↔
          ∃ p ∈ pairs, q = (p.1.toLower, p.2.toLower) ∧
            p.1.toLower ∈ iv ∧ p.2.toLower ∈ ev) ∧
      (validSeedPairs ipairs ido epo = [] →
        compute_seed_similarity ipairs ido epo = 0 ∧
          retrofit_embeddings iters α ipairs ido epo =
            Except.error "ZeroDivisionError: float division by zero") ∧
      (validSeedPairs ipairs ido epo ≠ [] →
        retrofit_embeddings iters α ipairs ido epo =
          Except.ok ((retrofitIteration α ipairs)^[iters] (ido, epo))) := by
  have hchar : ∀ (ps : List (String × String)) (acc : List (String × String) × Nat),
      ps.foldl
        (fun acc p =>
          if p.1.toLower ∈ iv ∧ p.2.toLower ∈ ev then
            (acc.1 ++ [(p.1.toLower, p.2.toLower)], acc.2)
          else (acc.1, acc.2 + 1))
        acc =
      (acc.1 ++ ps.filterMap
          (fun p => if p.1.toLower ∈ iv ∧ p.2.toLower ∈ ev then
            some (p.1.toLower, p.2.toLower) else none),
       acc.2 + ps.countP
          (fun p => !(decide (p.1.toLower ∈ iv ∧ p.2.toLower ∈ ev)))) := by
    intro ps
    induction ps with
    | nil => intro acc; simp
    | cons p rest ih =>
      intro acc
      rw [List.foldl_cons, ih, List.filterMap_cons, List.countP_cons]
      by_cases hc : p.1.toLower ∈ iv ∧ p.2.toLower ∈ ev
      · simp [hc, List.append_assoc]
      · simp [hc]
        omega
  have hload : load_seed_dictionary pairs iv ev =
      (pairs.filterMap
        (fun p => if p.1.toLower ∈ iv ∧ p.2.toLower ∈ ev then
          some (p.1.toLower, p.2.toLower) else none),
       pairs.countP
        (fun p => !(decide (p.1.toLower ∈ iv ∧ p.2.toLower ∈ ev)))) := by
    rw [load_seed_dictionary, hchar pairs ([], 0)]
    simp
  refine ⟨?_, ?_, ?_, ?_⟩
  · rw [hload]
    dsimp only
    clear hload hchar
    induction pairs with
    | nil => rfl
    | cons p rest ih =>
      rw [List.filterMap_cons, List.countP_cons]
      by_cases hc : p.1.toLower ∈ iv ∧ p.2.toLower ∈ ev
      · have hb0 : (if (!(decide (p.1.toLower ∈ iv ∧ p.2.toLower ∈ ev))) = true
            then 1 else 0) = 0 := by
          simp [hc]
        rw [if_pos hc, hb0]
        dsimp only
        rw [List.length_cons, List.length_cons]
        omega
      · have hb1 : (if (!(decide (p.1.toLower ∈ iv ∧ p.2.toLower ∈ ev))) = true
            then 1 else 0) = 1 := by
          simp [hc]
        rw [if_neg hc, hb1]
        dsimp only
        rw [List.length_cons]
        omega
  · intro q
    rw [hload]
    dsimp only
    rw [List.mem_filterMap]
    constructor
    · rintro ⟨p, hp, hsel⟩
      by_cases hc : p.1.toLower ∈ iv ∧ p.2.toLower ∈ ev
      · rw [if_pos hc] at hsel
        exact ⟨p, hp, (Option.some_inj.mp hsel).symm, hc⟩
      · rw [if_neg hc] at hsel
        cases hsel
    · rintro ⟨p, hp, hq, hc⟩
      refine ⟨p, hp, ?_⟩
      rw [if_pos hc, hq]
  · intro h
    constructor
    · rw [compute_seed_similarity, h]
      rfl
    · rw [retrofit_embeddings, if_pos h]
  · intro h
    rw [retrofit_embeddings, if_neg h]

/-- Witness for `seed_filter_spec`: with no seed pairs the usable set is
empty, the tracked similarity is the bare zero and the solver errors; with
one in-bounds pair it returns the evolved matrices. -/
theorem seed_filter_spec_witness :
    (validSeedPairs [] [[(0 : ℝ)]] [[(0 : ℝ)]] = [] ∧
      compute_seed_similarity [] [[(0 : ℝ)]] [[(0 : ℝ)]] = 0 ∧
      retrofit_embeddings 1 (1/2) [] [[(0 : ℝ)]] [[(0 : ℝ)]] =
        Except.error "ZeroDivisionError: float division by zero") ∧
    retrofit_embeddings 1 (1/2) [(0, 0)] [[(0 : ℝ)]] [[(0 : ℝ)]] =
      Except.ok ((retrofitIteration (1/2) [(0, 0)])^[1] ([[(0 : ℝ)]], [[(0 : ℝ)]])) := by
  have h1 := (seed_filter_spec [] [] [] 1 (1/2) [[0]] [[0]] []).2.2.1 rfl
  have h2 := (seed_filter_spec [] [] [] 1 (1/2) [[0]] [[0]] [(0, 0)]).2.2.2 (by decide)
  exact ⟨⟨rfl, h1.1, h1.2⟩, h2⟩

/-- Witness for `compute_frequency_ratio_spec` at counts `2, 3`. -/
theorem compute_frequency_ratio_spec_witness :
    compute_frequency_ratio 2 3 = compute_frequency_ratio 3 2 ∧
      compute_frequency_ratio 2 3 = min (2 : ℚ) (3 : ℚ) / max (2 : ℚ) (3 : ℚ) ∧
      0 < compute_frequency_ratio 2 3 ∧ compute_frequency_ratio 2 3 ≤ 1 := by
  have h := compute_frequency_ratio_spec 2 3
  have h2 := h.2.1 (by norm_num) (by norm_num)
  exact ⟨h.1, by exact_mod_cast h2.1, h2.2.1, h2.2.2⟩

end EmbeddingAligner
